import Mathlib

/-!
Verification of the schema-rewriting tool in fix-all-relations.py.

The script reads a schema file, and for each field name in a hardcoded list it
runs the Python regular expression

  (\s+)(\w+): one\([^,]+,\s*{\s*fields:\s*\[[^\]]*\.FIELD\],.*?}\)

with re.DOTALL over the whole buffer (re.finditer); for each match it comments
out the matched text line-wise (prefixing group(1) and the marker to each
non-blank line) and substitutes it into the buffer with str.replace, then it
rewrites the file in place.

The development below is a shallow embedding of that script over List Char
(ASCII inputs; the character classes \s and \w are modelled by their ASCII
portions, which is exact for every input considered here).  The regular
expression is embedded as a token sequence driven by a backtracking matcher
with Python's leftmost-first semantics: greedy quantifiers prefer the longest
repetition, the lazy quantifier prefers the shortest, and a literal must match
exactly.  All definitions are executable.
-/

set_option maxRecDepth 20000

namespace Clarafi

/-- ASCII portion of Python's whitespace class \s: space, tab, newline,
carriage return, vertical tab, form feed. -/
def spaceChar (c : Char) : Bool :=
  c = ' ' || c = '\t' || c = '\n' || c = '\r' || c = '\x0b' || c = '\x0c'

/-- ASCII portion of Python's word class \w: letters, digits, underscore. -/
def wordChar (c : Char) : Bool :=
  c.isAlphanum || c = '_'

/-- One token of the regular expression on line 42 of fix-all-relations.py:
a literal string, a greedy one-or-more character class (x+), a greedy
zero-or-more class (x*), or a lazy zero-or-more class (.*? under DOTALL). -/
inductive Tok where
  | lit : List Char → Tok
  | plus : (Char → Bool) → Tok
  | star : (Char → Bool) → Tok
  | lazyStar : (Char → Bool) → Tok

/-- Length of the longest run of characters satisfying p at the front of s. -/
def takeWhileLen (p : Char → Bool) : List Char → Nat
  | [] => 0
  | c :: cs => if p c then takeWhileLen p cs + 1 else 0

/-- Candidate repetition lengths for a greedy one-or-more quantifier whose
maximal run has length m: m, m-1, ..., 1. -/
def greedy1 (m : Nat) : List Nat :=
  ((List.range m).map (fun j => j + 1)).reverse

/-- Candidate repetition lengths for a greedy zero-or-more quantifier:
m, m-1, ..., 0. -/
def greedy0 (m : Nat) : List Nat :=
  (List.range (m + 1)).reverse

/-- Candidate repetition lengths for a lazy zero-or-more quantifier:
0, 1, ..., m. -/
def lazy0 (m : Nat) : List Nat :=
  List.range (m + 1)

/-- First success of f over a list of candidates, in order (the backtracking
order of the Python engine). -/
def firstSome {α : Type} (f : Nat → Option α) : List Nat → Option α
  | [] => none
  | k :: ks =>
    match f k with
    | some r => some r
    | none => firstSome f ks

/-- Backtracking matcher for a token sequence anchored at the start of s.
On success it returns the list of consumed chunks, one per token (so the
chunk of the first token is Python's group(1) for the pattern below), and
the total number of characters consumed. -/
def matchSeq : List Tok → List Char → Option (List (List Char) × Nat)
  | [], _ => some ([], 0)
  | Tok.lit l :: ts, s =>
    if l.isPrefixOf s then
      (matchSeq ts (s.drop l.length)).map (fun r => (l :: r.1, l.length + r.2))
    else none
  | Tok.plus p :: ts, s =>
    firstSome (fun k => (matchSeq ts (s.drop k)).map (fun r => (s.take k :: r.1, k + r.2)))
      (greedy1 (takeWhileLen p s))
  | Tok.star p :: ts, s =>
    firstSome (fun k => (matchSeq ts (s.drop k)).map (fun r => (s.take k :: r.1, k + r.2)))
      (greedy0 (takeWhileLen p s))
  | Tok.lazyStar p :: ts, s =>
    firstSome (fun k => (matchSeq ts (s.drop k)).map (fun r => (s.take k :: r.1, k + r.2)))
      (lazy0 (takeWhileLen p s))

/-- The fragment \[[^\]]*\.FIELD\] of the pattern: the field-reference test
applied to the bracketed fields array. -/
def fieldsToks (f : List Char) : List Tok :=
  [Tok.lit ['['], Tok.star (fun c => c != ']'), Tok.lit ('.' :: (f ++ [']']))]

/-- The full pattern of line 42, for one target field f:
(\s+)(\w+): one\([^,]+,\s*{\s*fields:\s*\[[^\]]*\.f\],.*?}\) with DOTALL
(so .*? matches newlines as well). -/
def relPattern (f : List Char) : List Tok :=
  [Tok.plus spaceChar, Tok.plus wordChar, Tok.lit (": one(".data),
   Tok.plus (fun c => c != ','), Tok.lit [','],
   Tok.star spaceChar, Tok.lit ['{'], Tok.star spaceChar,
   Tok.lit ("fields:".data), Tok.star spaceChar]
  ++ fieldsToks f
  ++ [Tok.lit [','], Tok.lazyStar (fun _ => true), Tok.lit ("\x7d)".data)]

/-- Fueled scan implementing re.finditer: try the pattern at every position
from left to right, and after a match resume immediately after it.  Each
returned pair is (group(0), group(1)).  Every match of relPattern consumes at
least one character (the \s+ group), so the zero-length guard is never taken
there. -/
def findAllF (toks : List Tok) : Nat → List Char → List (List Char × List Char)
  | 0, _ => []
  | fuel + 1, s =>
    match s with
    | [] => []
    | _ :: s' =>
      match matchSeq toks s with
      | some (gs, n) =>
        if n = 0 then findAllF toks fuel s'
        else (s.take n, gs.headD []) :: findAllF toks fuel (s.drop n)
      | none => findAllF toks fuel s'

/-- All matches of the token pattern in s, left to right (re.finditer). -/
def findAll (toks : List Tok) (s : List Char) : List (List Char × List Char) :=
  findAllF toks s.length s

/-- Python str.split(sep) for a one-character separator: splits s at every
occurrence of sep, keeping empty pieces. -/
def splitOnChar (sep : Char) : List Char → List (List Char)
  | [] => [[]]
  | c :: cs =>
    if c = sep then [] :: splitOnChar sep cs
    else
      match splitOnChar sep cs with
      | [] => [[c]]
      | l :: ls => (c :: l) :: ls

/-- original.split('\n') from line 53. -/
def splitNl (s : List Char) : List (List Char) :=
  splitOnChar '\n' s

/-- Python sep.join(pieces) for a one-character separator. -/
def joinSep (sep : Char) : List (List Char) → List Char
  | [] => []
  | [l] => l
  | l :: ls => l ++ sep :: joinSep sep ls

/-- Lines 52-53: '\n'.join(f'{indent}// {line}' if line.strip() else line
for line in original.split('\n')).  A line is prefixed when its stripped
content is non-empty, i.e. when it contains a non-whitespace character. -/
def commentBlock (indent original : List Char) : List Char :=
  joinSep '\n' ((splitNl original).map (fun line =>
    if line.any (fun c => !(spaceChar c)) then indent ++ ('/' :: '/' :: ' ' :: line)
    else line))

/-- Fueled version of Python str.replace(pat, rep): replaces every
non-overlapping occurrence of pat, scanning left to right, without rescanning
the replacement text.  (In the script pat is a matched block, hence never
empty; for an empty pat this model leaves s unchanged.) -/
def replaceAllF (pat rep : List Char) : Nat → List Char → List Char
  | 0, s => s
  | fuel + 1, s =>
    match s with
    | [] => []
    | c :: s' =>
      if pat ≠ [] ∧ pat.isPrefixOf (c :: s') then
        rep ++ replaceAllF pat rep fuel ((c :: s').drop pat.length)
      else c :: replaceAllF pat rep fuel s'

/-- content.replace(original, commented) from line 55. -/
def replaceAll (s pat rep : List Char) : List Char :=
  replaceAllF pat rep s.length s

/-- The body of the outer loop for one field (lines 42-55): the matches are
computed on the content as it was when re.finditer was called, then each
iteration rewrites the evolving buffer with str.replace. -/
def processField (content : List Char) (f : List Char) : List Char :=
  (findAll (relPattern f) content).foldl
    (fun c m => replaceAll c m.1 (commentBlock m.2 m.1)) content

/-- The hardcoded list of nullable foreign key fields (lines 12-36). -/
def nullable_fields : List (List Char) :=
  ["encounterId".data, "appointmentId".data, "orderedBy".data, "prescriber".data,
   "labOrderId".data, "pharmacyId".data, "providerId".data, "locationId".data,
   "healthSystemId".data, "reviewedBy".data, "verifiedBy".data, "addedBy".data,
   "resolvedBy".data, "externalLabId".data, "attachmentId".data, "parentId".data,
   "userId".data, "electronicSignatureId".data, "medicationId".data,
   "preferredPharmacyId".data, "setBy".data, "examinedBy".data,
   "imagingOrderId".data, "lastUpdatedBy".data]

/-- The whole-buffer transformation for an arbitrary target field list:
the outer loop of lines 40-55. -/
def rewriteFields (fields : List (List Char)) (content : List Char) : List Char :=
  fields.foldl processField content

/-- The transformation the script performs on the schema buffer. -/
def fixAllRelations (content : List Char) : List Char :=
  rewriteFields nullable_fields content

/-- Lines 57-59 model: the script reopens the schema file with mode 'w',
which (Python file semantics) truncates it to empty before any byte is
written, then writes the transformed buffer.  The sequence of on-disk
contents over a successful run is: original, empty, transformed. -/
def runFileStates (input : List Char) : List (List Char) :=
  [input, [], fixAllRelations input]

/-- On-disk content if the write of lines 58-59 stops after k bytes: the
open with mode 'w' has already truncated the file, so only the first k bytes
of the new content are present. -/
def fileAfterPartialWrite (newContent : List Char) (k : Nat) : List Char :=
  newContent.take k

/-- Python str.strip(): drop whitespace from both ends. -/
def stripWs (l : List Char) : List Char :=
  ((l.dropWhile (fun c => spaceChar c)).reverse.dropWhile (fun c => spaceChar c)).reverse

/-- The segment of a dotted reference after its last dot (the reference with
any qualifying prefix stripped). -/
def lastSegment (l : List Char) : List Char :=
  (splitOnChar '.' l).getLastD l

/-- Modelled from the spec: the Field Matcher contract of section 4.1, stated
for comparison with the pattern the code uses.  The argument-list content is
split on commas; each reference is trimmed and its qualifying prefix (an
enclosing-object accessor) stripped; the result must be exactly equal to a
name in the target field set. -/
def specFieldMatches (argList : List Char) (targetFields : List (List Char)) : Bool :=
  (splitOnChar ',' argList).any (fun r => targetFields.contains (lastSegment (stripWs r)))

/-- A line whose stripped content already starts with the comment marker. -/
def alreadyMarked (line : List Char) : Bool :=
  ("//".data).isPrefixOf (line.dropWhile (fun c => spaceChar c))

/-- What it means for a chunk to be the text consumed by one token: a literal
consumes exactly itself, x+ consumes a non-empty run of characters of the
class, x* and a lazy star consume a possibly empty run of the class. -/
def TokSat : Tok → List Char → Prop
  | Tok.lit l, c => c = l
  | Tok.plus p, c => c ≠ [] ∧ ∀ a ∈ c, p a = true
  | Tok.star p, c => ∀ a ∈ c, p a = true
  | Tok.lazyStar p, c => ∀ a ∈ c, p a = true

/-- Concatenation of a chunk list. -/
def concatAll : List (List Char) → List Char
  | [] => []
  | l :: ls => l ++ concatAll ls

theorem firstSome_eq_some {α : Type} {f : Nat → Option α} :
    ∀ {ks : List Nat} {r : α}, firstSome f ks = some r → ∃ k ∈ ks, f k = some r := by
  intro ks
  induction ks with
  | nil => intro r h; simp [firstSome] at h
  | cons k ks ih =>
    intro r h
    rw [firstSome] at h
    cases hk : f k with
    | some v =>
      rw [hk] at h
      exact ⟨k, List.mem_cons_self k ks, hk.trans h⟩
    | none =>
      rw [hk] at h
      obtain ⟨k', hmem, hfk'⟩ := ih h
      exact ⟨k', List.mem_cons_of_mem _ hmem, hfk'⟩

theorem firstSome_isSome {α : Type} {f : Nat → Option α} :
    ∀ {ks : List Nat}, (firstSome f ks).isSome = true ↔ ∃ k ∈ ks, (f k).isSome = true := by
  intro ks
  induction ks with
  | nil => simp [firstSome]
  | cons k ks ih =>
    rw [firstSome]
    cases hk : f k with
    | some v => simp [hk]
    | none => simp [hk, ih]

theorem takeWhileLen_le (p : Char → Bool) : ∀ s : List Char, takeWhileLen p s ≤ s.length := by
  intro s
  induction s with
  | nil => simp [takeWhileLen]
  | cons c cs ih =>
    rw [takeWhileLen]
    split
    · simpa using ih
    · simp

theorem sat_of_le_takeWhileLen {p : Char → Bool} :
    ∀ {s : List Char} {k : Nat}, k ≤ takeWhileLen p s → ∀ c ∈ s.take k, p c = true := by
  intro s
  induction s with
  | nil => intro k hk c hc; simp at hc
  | cons a cs ih =>
    intro k hk c hc
    by_cases hp : p a
    · rw [takeWhileLen, if_pos hp] at hk
      cases k with
      | zero => simp at hc
      | succ k =>
        rw [List.take_succ_cons] at hc
        rcases List.mem_cons.mp hc with rfl | hmem
        · exact hp
        · exact ih (Nat.le_of_succ_le_succ hk) c hmem
    · rw [takeWhileLen, if_neg hp] at hk
      have : k = 0 := Nat.le_zero.mp hk
      subst this
      simp at hc

theorem le_takeWhileLen_append {p : Char → Bool} :
    ∀ {u : List Char} (v : List Char), (∀ c ∈ u, p c = true) →
      u.length ≤ takeWhileLen p (u ++ v) := by
  intro u
  induction u with
  | nil => intro v _; simp
  | cons a us ih =>
    intro v h
    have hpa : p a = true := h a (List.mem_cons_self a us)
    rw [List.cons_append, takeWhileLen, if_pos hpa]
    exact Nat.succ_le_succ (ih v fun c hc => h c (List.mem_cons_of_mem a hc))

theorem mem_greedy1 {k m : Nat} : k ∈ greedy1 m ↔ 1 ≤ k ∧ k ≤ m := by
  simp only [greedy1, List.mem_reverse, List.mem_map, List.mem_range]
  constructor
  · rintro ⟨j, hj, rfl⟩; omega
  · rintro ⟨h1, h2⟩; exact ⟨k - 1, by omega, by omega⟩

theorem mem_greedy0 {k m : Nat} : k ∈ greedy0 m ↔ k ≤ m := by
  simp only [greedy0, List.mem_reverse, List.mem_range]
  omega

theorem mem_lazy0 {k m : Nat} : k ∈ lazy0 m ↔ k ≤ m := by
  simp only [lazy0, List.mem_range]
  omega

theorem firstSome_quant_eq_some {ts : List Tok} {s : List Char} {cands : List Nat}
    {gs : List (List Char)} {n : Nat}
    (h : firstSome
        (fun k => (matchSeq ts (s.drop k)).map (fun r => (s.take k :: r.1, k + r.2))) cands
        = some (gs, n)) :
    ∃ k ∈ cands, ∃ gs' n', matchSeq ts (s.drop k) = some (gs', n')
      ∧ gs = s.take k :: gs' ∧ n = k + n' := by
  obtain ⟨k, hk, hf⟩ := firstSome_eq_some h
  rw [Option.map_eq_some'] at hf
  obtain ⟨⟨gs', n'⟩, hm, heq⟩ := hf
  cases heq
  exact ⟨k, hk, gs', n', hm, rfl, rfl⟩

theorem matchSeq_sound :
    ∀ (toks : List Tok) (s : List Char) (gs : List (List Char)) (n : Nat),
      matchSeq toks s = some (gs, n) →
      List.Forall₂ TokSat toks gs ∧ n ≤ s.length ∧ s.take n = concatAll gs := by
  intro toks
  induction toks with
  | nil =>
    intro s gs n h
    rw [matchSeq] at h
    cases h
    exact ⟨List.Forall₂.nil, Nat.zero_le _, by simp [concatAll]⟩
  | cons t ts ih =>
    intro s gs n h
    cases t with
    | lit l =>
      rw [matchSeq] at h
      split at h
      case isTrue hpre =>
        rw [Option.map_eq_some'] at h
        obtain ⟨⟨gs', n'⟩, hm, heq⟩ := h
        cases heq
        obtain ⟨hF, hn, htake⟩ := ih _ _ _ hm
        obtain ⟨t', rfl⟩ := List.isPrefixOf_iff_prefix.mp hpre
        rw [List.drop_left] at hn htake
        refine ⟨List.Forall₂.cons rfl hF, ?_, ?_⟩
        · rw [List.length_append]; omega
        · rw [List.take_add, List.take_left, List.drop_left, htake]
          rfl
      case isFalse => exact absurd h (by simp)
    | plus p =>
      rw [matchSeq] at h
      obtain ⟨k, hkmem, gs', n', hm, rfl, rfl⟩ := firstSome_quant_eq_some h
      obtain ⟨hF, hn, htake⟩ := ih _ _ _ hm
      rw [mem_greedy1] at hkmem
      have hkle : k ≤ s.length := le_trans hkmem.2 (takeWhileLen_le p s)
      refine ⟨List.Forall₂.cons ⟨?_, sat_of_le_takeWhileLen hkmem.2⟩ hF, ?_, ?_⟩
      · have hlt : (s.take k).length = k := by rw [List.length_take]; omega
        intro hnil
        rw [hnil] at hlt
        simp at hlt
        omega
      · rw [List.length_drop] at hn; omega
      · rw [List.take_add, htake]; rfl
    | star p =>
      rw [matchSeq] at h
      obtain ⟨k, hkmem, gs', n', hm, rfl, rfl⟩ := firstSome_quant_eq_some h
      obtain ⟨hF, hn, htake⟩ := ih _ _ _ hm
      rw [mem_greedy0] at hkmem
      refine ⟨List.Forall₂.cons (sat_of_le_takeWhileLen hkmem) hF, ?_, ?_⟩
      · have := takeWhileLen_le p s
        rw [List.length_drop] at hn
        omega
      · rw [List.take_add, htake]; rfl
    | lazyStar p =>
      rw [matchSeq] at h
      obtain ⟨k, hkmem, gs', n', hm, rfl, rfl⟩ := firstSome_quant_eq_some h
      obtain ⟨hF, hn, htake⟩ := ih _ _ _ hm
      rw [mem_lazy0] at hkmem
      refine ⟨List.Forall₂.cons (sat_of_le_takeWhileLen hkmem) hF, ?_, ?_⟩
      · have := takeWhileLen_le p s
        rw [List.length_drop] at hn
        omega
      · rw [List.take_add, htake]; rfl

theorem mem_findAllF {toks : List Tok} :
    ∀ (fuel : Nat) (s : List Char) (m : List Char × List Char), m ∈ findAllF toks fuel s →
      ∃ u t gs n, u ++ t = s ∧ matchSeq toks t = some (gs, n) ∧ m = (t.take n, gs.headD []) := by
  intro fuel
  induction fuel with
  | zero => intro s m h; simp [findAllF] at h
  | succ fuel ih =>
    intro s m h
    cases s with
    | nil => simp [findAllF] at h
    | cons c s' =>
      rw [findAllF] at h
      cases hm : matchSeq toks (c :: s') with
      | none =>
        rw [hm] at h
        obtain ⟨u, t, gs, n, hut, hms, hmm⟩ := ih s' m h
        exact ⟨c :: u, t, gs, n, by rw [← hut]; rfl, hms, hmm⟩
      | some r =>
        obtain ⟨gs, n⟩ := r
        rw [hm] at h
        simp only at h
        by_cases hn : n = 0
        · rw [if_pos hn] at h
          obtain ⟨u, t, gs', n', hut, hms, hmm⟩ := ih s' m h
          exact ⟨c :: u, t, gs', n', by rw [← hut]; rfl, hms, hmm⟩
        · rw [if_neg hn] at h
          rcases List.mem_cons.mp h with rfl | hmem
          · exact ⟨[], c :: s', gs, n, rfl, hm, rfl⟩
          · obtain ⟨u, t, gs', n', hut, hms, hmm⟩ := ih _ m hmem
            refine ⟨(c :: s').take n ++ u, t, gs', n', ?_, hms, hmm⟩
            rw [List.append_assoc, hut, List.take_append_drop]

theorem mem_findAll {toks : List Tok} {s : List Char} {m : List Char × List Char}
    (h : m ∈ findAll toks s) :
    ∃ u t gs n, u ++ t = s ∧ matchSeq toks t = some (gs, n) ∧ m = (t.take n, gs.headD []) :=
  mem_findAllF _ _ _ h

theorem splitOnChar_ne_nil (sep : Char) : ∀ s : List Char, splitOnChar sep s ≠ [] := by
  intro s
  cases s with
  | nil => simp [splitOnChar]
  | cons c cs =>
    by_cases h : c = sep
    · simp [splitOnChar, h]
    · rw [splitOnChar, if_neg h]
      cases hs : splitOnChar sep cs <;> simp

theorem not_sep_mem_of_mem_splitOnChar {sep : Char} :
    ∀ {s l : List Char}, l ∈ splitOnChar sep s → sep ∉ l := by
  intro s
  induction s with
  | nil =>
    intro l h
    simp [splitOnChar] at h
    subst h
    simp
  | cons c cs ih =>
    intro l h
    by_cases hc : c = sep
    · rw [splitOnChar, if_pos hc] at h
      rcases List.mem_cons.mp h with rfl | hmem
      · simp
      · exact ih hmem
    · rw [splitOnChar, if_neg hc] at h
      cases hs : splitOnChar sep cs with
      | nil => exact absurd hs (splitOnChar_ne_nil sep cs)
      | cons x xs =>
        rw [hs] at h
        rcases List.mem_cons.mp h with rfl | hmem
        · intro hmem2
          rcases List.mem_cons.mp hmem2 with h1 | h2
          · exact hc h1.symm
          · exact ih (hs ▸ List.mem_cons_self x xs) h2
        · exact ih (by rw [hs]; exact List.mem_cons_of_mem x hmem)

theorem splitOnChar_of_not_mem {sep : Char} :
    ∀ {l : List Char}, sep ∉ l → splitOnChar sep l = [l] := by
  intro l
  induction l with
  | nil => intro _; rfl
  | cons c cs ih =>
    intro h
    have hc : ¬ c = sep := fun hh => h (by simp [hh])
    rw [splitOnChar, if_neg hc, ih (fun hm => h (List.mem_cons_of_mem c hm))]

theorem splitOnChar_append_cons {sep : Char} :
    ∀ {l : List Char} (t : List Char), sep ∉ l →
      splitOnChar sep (l ++ sep :: t) = l :: splitOnChar sep t := by
  intro l
  induction l with
  | nil =>
    intro t _
    rw [List.nil_append, splitOnChar, if_pos rfl]
  | cons c cs ih =>
    intro t h
    have hc : ¬ c = sep := fun hh => h (by simp [hh])
    rw [List.cons_append, splitOnChar, if_neg hc, ih t (fun hm => h (List.mem_cons_of_mem c hm))]

theorem splitOnChar_joinSep {sep : Char} :
    ∀ {ls : List (List Char)}, ls ≠ [] → (∀ l ∈ ls, sep ∉ l) →
      splitOnChar sep (joinSep sep ls) = ls := by
  intro ls
  induction ls with
  | nil => intro h _; exact absurd rfl h
  | cons l ls ih =>
    intro _ hmem
    cases ls with
    | nil => exact splitOnChar_of_not_mem (hmem l (List.mem_cons_self l []))
    | cons l' ls' =>
      have hne : l' :: ls' ≠ [] := List.cons_ne_nil l' ls'
      have hrec := ih hne (fun x hx => hmem x (List.mem_cons_of_mem l hx))
      rw [show joinSep sep (l :: l' :: ls') = l ++ sep :: joinSep sep (l' :: ls') from rfl,
        splitOnChar_append_cons _ (hmem l (List.mem_cons_self l _)), hrec]

theorem replaceAllF_nil (pat rep : List Char) : ∀ fuel, replaceAllF pat rep fuel [] = [] := by
  intro fuel
  cases fuel <;> rfl

theorem replaceAllF_fuel {pat rep : List Char} :
    ∀ (f1 f2 : Nat) (s : List Char), s.length ≤ f1 → s.length ≤ f2 →
      replaceAllF pat rep f1 s = replaceAllF pat rep f2 s := by
  intro f1
  induction f1 with
  | zero =>
    intro f2 s h1 _
    have hs : s = [] := List.length_eq_zero.mp (Nat.le_zero.mp h1)
    subst hs
    rw [replaceAllF_nil, replaceAllF_nil]
  | succ f1 ih =>
    intro f2 s h1 h2
    cases s with
    | nil => rw [replaceAllF_nil, replaceAllF_nil]
    | cons c s' =>
      cases f2 with
      | zero => simp at h2
      | succ f2 =>
        rw [replaceAllF, replaceAllF]
        by_cases hp : pat ≠ [] ∧ pat.isPrefixOf (c :: s')
        · rw [if_pos hp, if_pos hp]
          have hplen : 1 ≤ pat.length := List.length_pos.mpr hp.1
          have hd : ((c :: s').drop pat.length).length ≤ f1 := by
            rw [List.length_drop]
            simp only [List.length_cons] at h1 ⊢
            omega
          have hd2 : ((c :: s').drop pat.length).length ≤ f2 := by
            rw [List.length_drop]
            simp only [List.length_cons] at h2 ⊢
            omega
          rw [ih f2 _ hd hd2]
        · rw [if_neg hp, if_neg hp]
          simp only [List.length_cons] at h1 h2
          rw [ih f2 s' (by omega) (by omega)]

theorem replaceAllF_skip {pat rep : List Char} :
    ∀ (u t : List Char) (fuel : Nat), u.length + t.length ≤ fuel →
      (∀ i, i < u.length → ¬ pat.isPrefixOf (u.drop i ++ t) = true) →
      replaceAllF pat rep fuel (u ++ t) = u ++ replaceAllF pat rep (fuel - u.length) t := by
  intro u
  induction u with
  | nil => intro t fuel _ _; simp
  | cons c u' ih =>
    intro t fuel h1 h2
    cases fuel with
    | zero => simp at h1
    | succ fuel =>
      rw [List.cons_append, replaceAllF]
      have hnp : ¬ (pat ≠ [] ∧ pat.isPrefixOf (c :: (u' ++ t))) := by
        rintro ⟨_, hp⟩
        exact h2 0 (by simp) (by simpa using hp)
      rw [if_neg hnp]
      have hlen : u'.length + t.length ≤ fuel := by
        simp only [List.length_cons] at h1
        omega
      rw [ih t fuel hlen (fun i hi => by
        have := h2 (i + 1) (by simp only [List.length_cons]; omega)
        simpa using this)]
      have harith : fuel + 1 - (c :: u').length = fuel - u'.length := by
        simp only [List.length_cons]
        omega
      rw [List.cons_append, harith]

theorem replaceAllF_hit {pat rep t : List Char} {fuel : Nat}
    (hp : pat ≠ []) (h : pat.length + t.length ≤ fuel) :
    replaceAllF pat rep fuel (pat ++ t) = rep ++ replaceAllF pat rep (fuel - pat.length) t := by
  cases fuel with
  | zero =>
    have := List.length_pos.mpr hp
    omega
  | succ fuel =>
    cases hpat : pat with
    | nil => exact absurd hpat hp
    | cons p0 pat' =>
      subst hpat
      rw [List.cons_append, replaceAllF]
      have hc : (p0 :: pat') ≠ [] ∧ (p0 :: pat').isPrefixOf (p0 :: (pat' ++ t)) := by
        refine ⟨hp, ?_⟩
        rw [← List.cons_append, List.isPrefixOf_iff_prefix]
        exact List.prefix_append _ _
      rw [if_pos hc]
      congr 1
      rw [show (p0 :: (pat' ++ t)).drop (p0 :: pat').length = t by
        rw [← List.cons_append, List.drop_left]]
      apply replaceAllF_fuel
      · simp only [List.length_cons, List.length_append] at h ⊢
        omega
      · simp only [List.length_cons] at h ⊢
        omega

theorem replaceAllF_none {pat rep : List Char} :
    ∀ (w : List Char) (fuel : Nat), (∀ i, i < w.length → ¬ pat.isPrefixOf (w.drop i) = true) →
      replaceAllF pat rep fuel w = w := by
  intro w
  induction w with
  | nil => intro fuel _; exact replaceAllF_nil pat rep fuel
  | cons c w' ih =>
    intro fuel h
    cases fuel with
    | zero => rfl
    | succ fuel =>
      rw [replaceAllF]
      have hnp : ¬ (pat ≠ [] ∧ pat.isPrefixOf (c :: w')) := by
        rintro ⟨_, hp⟩
        exact h 0 (by simp) (by simpa using hp)
      rw [if_neg hnp, ih fuel (fun i hi => by
        have := h (i + 1) (by simp only [List.length_cons]; omega)
        simpa using this)]

theorem processField_of_no_match {c f : List Char} (h : findAll (relPattern f) c = []) :
    processField c f = c := by
  unfold processField
  rw [h]
  rfl

theorem rewriteFields_of_no_match :
    ∀ {fields : List (List Char)} {S : List Char},
      (∀ f ∈ fields, findAll (relPattern f) S = []) → rewriteFields fields S = S := by
  intro fields
  induction fields with
  | nil => intro S _; rfl
  | cons f fs ih =>
    intro S h
    show List.foldl processField S (f :: fs) = S
    rw [List.foldl_cons, processField_of_no_match (h f (List.mem_cons_self f fs))]
    exact ih (fun g hg => h g (List.mem_cons_of_mem f hg))

/-- C1: the claim states that the span selected for a relation declaration ends
at the outer closing delimiter restoring the delimiter depth of the start.  The
code instead stops at the first closing-brace-closing-paren pair after the
fields array (the lazy .*? of the pattern): on the input below, which contains
the nested call h({y: [1]}) before the true end, the single match ends right
after that inner pair, leaving the suffix ", z: 2 \x7d)" (which holds the true
outer closing delimiter) outside the selected span. -/
theorem c1_scan_stops_at_first_closing_pair :
    (findAll (relPattern ("userId".data))
        ("\n  p: one(u, \x7b fields: [t.userId], x: h(\x7by: [1]\x7d), z: 2 \x7d)".data)).map Prod.fst
      = [("\n  p: one(u, \x7b fields: [t.userId], x: h(\x7by: [1]\x7d)".data)]
    ∧ ("\n  p: one(u, \x7b fields: [t.userId], x: h(\x7by: [1]\x7d), z: 2 \x7d)".data)
      = ("\n  p: one(u, \x7b fields: [t.userId], x: h(\x7by: [1]\x7d)".data) ++ (", z: 2 \x7d)".data) := by
  decide

/-- C2: the claim states that the rewrite is idempotent and that an
already-commented block is recognized and skipped.  The code has no such
recognition: on a single-line relation declaration the commented output still
matches the pattern (the marker sits before the identifier, and the whitespace
run after the marker serves as a fresh group(1)), so a second run comments the
block again and the output differs. -/
theorem c2_rewrite_not_idempotent :
    rewriteFields [("userId".data)]
        (rewriteFields [("userId".data)]
          ("\n  foo: one(bar, \x7b fields: [baz.userId], references: [bar.id] \x7d)".data))
      ≠ rewriteFields [("userId".data)]
          ("\n  foo: one(bar, \x7b fields: [baz.userId], references: [bar.id] \x7d)".data) := by
  decide

/-- C3 counterexample: the claim says the field match test returns true iff the
argument list contains a reference whose prefix-stripped name equals a target
name.  The block below contains the qualified reference baz.userId, so the
spec-side matcher accepts it, but the code's pattern requires the target to be
the final element immediately before the closing bracket and finds no match, so
the block is left unchanged. -/
theorem c3_counterexample :
    specFieldMatches ("baz.userId, baz.orgId".data) [("userId".data)] = true
    ∧ findAll (relPattern ("userId".data))
        ("\n  foo: one(bar, \x7b fields: [baz.userId, baz.orgId], references: [bar.id, bar.x] \x7d)".data)
      = []
    ∧ rewriteFields [("userId".data)]
        ("\n  foo: one(bar, \x7b fields: [baz.userId, baz.orgId], references: [bar.id, bar.x] \x7d)".data)
      = ("\n  foo: one(bar, \x7b fields: [baz.userId, baz.orgId], references: [bar.id, bar.x] \x7d)".data) := by
  decide

/-- C3 amended: the field-reference test that the pattern applies to the fields
array succeeds iff the bracketed content ends with a dot followed by the target
name immediately before the closing bracket, i.e. the dot-qualified target is
the final element of the array.  A target referenced in a non-final position,
or occurring only as a proper substring of a longer dotted segment, does not
match (the dot must immediately precede the name and the bracket must
immediately follow it). -/
theorem c3_field_match_iff_final_element {f s : List Char} :
    (matchSeq (fieldsToks f) s).isSome = true ↔
      ∃ mid rest, s = '[' :: (mid ++ ('.' :: (f ++ (']' :: rest)))) ∧ ']' ∉ mid := by
  constructor
  · intro h
    rw [Option.isSome_iff_exists] at h
    obtain ⟨⟨gs, n⟩, hm⟩ := h
    obtain ⟨hF, hn, htake⟩ := matchSeq_sound _ _ _ _ hm
    rw [fieldsToks] at hF
    rw [List.forall₂_cons_left_iff] at hF
    obtain ⟨g1, u1, h1, hF, rfl⟩ := hF
    rw [List.forall₂_cons_left_iff] at hF
    obtain ⟨g2, u2, h2, hF, rfl⟩ := hF
    rw [List.forall₂_cons_left_iff] at hF
    obtain ⟨g3, u3, h3, hF, rfl⟩ := hF
    rw [List.forall₂_nil_left_iff] at hF
    subst hF
    have hg1 : g1 = ['['] := h1
    have hg3 : g3 = '.' :: (f ++ [']']) := h3
    subst hg1
    subst hg3
    refine ⟨g2, s.drop n, ?_, ?_⟩
    · conv_lhs => rw [← List.take_append_drop n s]
      rw [htake]
      simp [concatAll]
    · intro hmem
      have hq := h2 ']' hmem
      simp at hq
  · rintro ⟨mid, rest, rfl, hmid⟩
    rw [fieldsToks, matchSeq]
    have hpre : (['[']).isPrefixOf ('[' :: (mid ++ ('.' :: (f ++ (']' :: rest))))) = true := by
      simp [List.isPrefixOf]
    rw [if_pos hpre, Option.isSome_map']
    simp only [List.length_cons, List.length_nil, List.drop_succ_cons, List.drop_zero]
    rw [matchSeq, firstSome_isSome]
    refine ⟨mid.length, ?_, ?_⟩
    · rw [mem_greedy0]
      exact le_takeWhileLen_append _ (fun c hc => by
        rw [bne_iff_ne]
        exact fun hh => hmid (hh ▸ hc))
    · rw [Option.isSome_map', List.drop_left, matchSeq]
      have hpre2 : ('.' :: (f ++ [']'])).isPrefixOf ('.' :: (f ++ (']' :: rest))) = true := by
        rw [List.isPrefixOf_iff_prefix]
        refine ⟨rest, ?_⟩
        simp
      rw [if_pos hpre2, Option.isSome_map', matchSeq]
      rfl

/-- C4 counterexample: the claim says a block is transformed if and only if it
references at least one target field.  The block below references the target
userId (the spec-side matcher accepts its argument list), yet the code leaves
the whole text unchanged because the reference is not the final element of the
fields array. -/
theorem c4_counterexample :
    specFieldMatches ("tu.userId, tu.teamId".data) [("userId".data)] = true
    ∧ rewriteFields [("userId".data)]
        ("\n  bar: one(tu, \x7b fields: [tu.userId, tu.teamId], references: [u.id, u.t] \x7d)".data)
      = ("\n  bar: one(tu, \x7b fields: [tu.userId, tu.teamId], references: [u.id, u.t] \x7d)".data) := by
  decide

/-- C4 amended: a block is transformed only when the pattern matches it (the
target appears dot-qualified as the final element of its fields array, see C8),
not merely when it references a target field; in particular, when the pattern
finds no match for any target field, the output text is byte-identical to the
input. -/
theorem c4_no_match_output_identical {fields : List (List Char)} {S : List Char}
    (h : ∀ f ∈ fields, findAll (relPattern f) S = []) :
    rewriteFields fields S = S :=
  rewriteFields_of_no_match h

theorem c4_no_match_output_identical_witness :
    rewriteFields [("userId".data)] ("export const t = x;".data) = ("export const t = x;".data) :=
  c4_no_match_output_identical (by decide)

/-- C5: the claim states that commenting a matched block preserves its number
of physical lines.  On the block below the whitespace group(1) captures the
newline that precedes the declaration, so the comment prefix inserted before
the non-blank line contains that newline and the commented text has three
physical lines where the block had two. -/
theorem c5_comment_changes_line_count :
    findAll (relPattern ("userId".data))
        ("\n  qux: one(tab, \x7b fields: [tab.userId], references: [oth.id] \x7d)".data)
      = [(("\n  qux: one(tab, \x7b fields: [tab.userId], references: [oth.id] \x7d)".data),
          ("\n  ".data))]
    ∧ (splitNl ("\n  qux: one(tab, \x7b fields: [tab.userId], references: [oth.id] \x7d)".data)).length
      = 2
    ∧ (splitNl (commentBlock ("\n  ".data)
        ("\n  qux: one(tab, \x7b fields: [tab.userId], references: [oth.id] \x7d)".data))).length
      = 3 := by
  decide

/-- C6: commenting a block is line-wise.  When the indent string contains no
newline, the physical lines of the commented text correspond one to one to the
physical lines of the block: a blank line passes through unchanged, and a
non-blank line whose stripped content does not already start with the comment
marker becomes the indent, the marker and the original line. -/
theorem c6_comment_linewise {indent original : List Char} (h : '\n' ∉ indent) :
    List.Forall₂ (fun line out =>
        (line.any (fun c => !(spaceChar c)) = false → out = line) ∧
        (line.any (fun c => !(spaceChar c)) = true → alreadyMarked line = false →
          out = indent ++ ('/' :: '/' :: ' ' :: line)))
      (splitNl original) (splitNl (commentBlock indent original)) := by
  have hpieces : ∀ l ∈ splitNl original, '\n' ∉ l := fun l hl =>
    not_sep_mem_of_mem_splitOnChar hl
  have hsplit : splitNl (commentBlock indent original)
      = (splitNl original).map (fun line =>
          if line.any (fun c => !(spaceChar c)) then indent ++ ('/' :: '/' :: ' ' :: line)
          else line) := by
    unfold commentBlock
    apply splitOnChar_joinSep
    · intro hnil
      exact splitOnChar_ne_nil '\n' original (List.map_eq_nil_iff.mp hnil)
    · intro l hl
      rw [List.mem_map] at hl
      obtain ⟨line, hline, rfl⟩ := hl
      split
      · intro hmem
        rcases List.mem_append.mp hmem with hm | hm
        · exact h hm
        · rcases List.mem_cons.mp hm with hm1 | hm2
          · exact absurd hm1 (by decide)
          · rcases List.mem_cons.mp hm2 with hm3 | hm4
            · exact absurd hm3 (by decide)
            · rcases List.mem_cons.mp hm4 with hm5 | hm6
              · exact absurd hm5 (by decide)
              · exact hpieces line hline hm6
      · exact hpieces line hline
  rw [hsplit, List.forall₂_map_right_iff]
  rw [List.forall₂_same]
  intro line _
  constructor
  · intro hfalse
    simp [hfalse]
  · intro htrue _
    simp [htrue]

theorem c6_comment_linewise_witness :
    List.Forall₂ (fun line out =>
        (line.any (fun c => !(spaceChar c)) = false → out = line) ∧
        (line.any (fun c => !(spaceChar c)) = true → alreadyMarked line = false →
          out = ("  ".data) ++ ('/' :: '/' :: ' ' :: line)))
      (splitNl ("a = 1;\n\n  b = 2;".data))
      (splitNl (commentBlock ("  ".data) ("a = 1;\n\n  b = 2;".data))) :=
  c6_comment_linewise (by decide)

/-- C7: the claim states that a failed write leaves the original file
untouched.  The code reopens the destination itself with mode 'w', which
truncates it before any byte is written: if the write then stops after k bytes
only a prefix of the new content is on disk and the original content is gone
(here: after 4 bytes the file holds "let ", which is neither the original nor
the full new content; after 0 bytes it is empty). -/
theorem c7_truncation_loses_original :
    fileAfterPartialWrite (fixAllRelations ("let a = 1;".data)) 4 = ("let ".data)
    ∧ ("let ".data) ≠ ("let a = 1;".data)
    ∧ fileAfterPartialWrite (fixAllRelations ("let a = 1;".data)) 0 = []
    ∧ ("let a = 1;".data) ≠ ([] : List Char) := by
  decide

/-- C8: every block the scan selects (hence every transformed block)
decomposes as whitespace, an identifier, the literal text ": one(", a
comma-free first argument, a comma, an object brace, the literal "fields:",
an opening bracket, bracket-free content, then a dot immediately followed by
the target field and the closing bracket (so the dot-qualified target is the
final element of the fields array), a comma, arbitrary text, and the literal
"})".  In particular a declaration bound to any other call name (for example
many), or whose target reference is not the final element, is never selected. -/
theorem c8_matched_block_shape {f s : List Char} {m : List Char × List Char}
    (hm : m ∈ findAll (relPattern f) s) :
    ∃ ws idf arg1 w1 w2 w3 mid tail,
      m.1 = ws ++ idf ++ (": one(".data) ++ arg1 ++ [','] ++ w1 ++ ['{'] ++ w2
          ++ ("fields:".data) ++ w3 ++ ['['] ++ mid ++ ('.' :: (f ++ [']'])) ++ [',']
          ++ tail ++ ("\x7d)".data)
      ∧ ws ≠ [] ∧ (∀ c ∈ ws, spaceChar c = true)
      ∧ idf ≠ [] ∧ (∀ c ∈ idf, wordChar c = true)
      ∧ arg1 ≠ [] ∧ (∀ c ∈ arg1, c ≠ ',')
      ∧ (∀ c ∈ mid, c ≠ ']') := by
  obtain ⟨u, t, gs, n, hut, hms, hm1⟩ := mem_findAll hm
  obtain ⟨hF, _, htake⟩ := matchSeq_sound _ _ _ _ hms
  rw [relPattern, fieldsToks] at hF
  simp only [List.cons_append, List.nil_append] at hF
  rw [List.forall₂_cons_left_iff] at hF
  obtain ⟨g1, u1, h1, hF, rfl⟩ := hF
  rw [List.forall₂_cons_left_iff] at hF
  obtain ⟨g2, u2, h2, hF, rfl⟩ := hF
  rw [List.forall₂_cons_left_iff] at hF
  obtain ⟨g3, u3, h3, hF, rfl⟩ := hF
  rw [List.forall₂_cons_left_iff] at hF
  obtain ⟨g4, u4, h4, hF, rfl⟩ := hF
  rw [List.forall₂_cons_left_iff] at hF
  obtain ⟨g5, u5, h5, hF, rfl⟩ := hF
  rw [List.forall₂_cons_left_iff] at hF
  obtain ⟨g6, u6, h6, hF, rfl⟩ := hF
  rw [List.forall₂_cons_left_iff] at hF
  obtain ⟨g7, u7, h7, hF, rfl⟩ := hF
  rw [List.forall₂_cons_left_iff] at hF
  obtain ⟨g8, u8, h8, hF, rfl⟩ := hF
  rw [List.forall₂_cons_left_iff] at hF
  obtain ⟨g9, u9, h9, hF, rfl⟩ := hF
  rw [List.forall₂_cons_left_iff] at hF
  obtain ⟨g10, u10, h10, hF, rfl⟩ := hF
  rw [List.forall₂_cons_left_iff] at hF
  obtain ⟨g11, u11, h11, hF, rfl⟩ := hF
  rw [List.forall₂_cons_left_iff] at hF
  obtain ⟨g12, u12, h12, hF, rfl⟩ := hF
  rw [List.forall₂_cons_left_iff] at hF
  obtain ⟨g13, u13, h13, hF, rfl⟩ := hF
  rw [List.forall₂_cons_left_iff] at hF
  obtain ⟨g14, u14, h14, hF, rfl⟩ := hF
  rw [List.forall₂_cons_left_iff] at hF
  obtain ⟨g15, u15, h15, hF, rfl⟩ := hF
  rw [List.forall₂_cons_left_iff] at hF
  obtain ⟨g16, u16, h16, hF, rfl⟩ := hF
  rw [List.forall₂_nil_left_iff] at hF
  subst hF
  have hg3 : g3 = (": one(".data) := h3
  have hg5 : g5 = [','] := h5
  have hg7 : g7 = ['{'] := h7
  have hg9 : g9 = ("fields:".data) := h9
  have hg11 : g11 = ['['] := h11
  have hg13 : g13 = '.' :: (f ++ [']']) := h13
  have hg14 : g14 = [','] := h14
  have hg16 : g16 = ("\x7d)".data) := h16
  subst hg3; subst hg5; subst hg7; subst hg9; subst hg11; subst hg13; subst hg14; subst hg16
  refine ⟨g1, g2, g4, g6, g8, g10, g12, g15, ?_, h1.1, h1.2, h2.1, h2.2, h4.1, ?_, ?_⟩
  · rw [hm1]
    show t.take n = _
    rw [htake]
    simp [concatAll]
  · intro c hc
    have := h4.2 c hc
    rwa [bne_iff_ne] at this
  · intro c hc
    have := h12 c hc
    rwa [bne_iff_ne] at this

theorem c8_matched_block_shape_witness :
    ∃ ws idf arg1 w1 w2 w3 mid tail,
      ((("\n  a: one(b, \x7b fields: [c.parentId], references: [b.id] \x7d)".data),
        ("\n  ".data)) : List Char × List Char).1
        = ws ++ idf ++ (": one(".data) ++ arg1 ++ [','] ++ w1 ++ ['{'] ++ w2
            ++ ("fields:".data) ++ w3 ++ ['['] ++ mid
            ++ ('.' :: (("parentId".data) ++ [']'])) ++ [',']
            ++ tail ++ ("\x7d)".data)
      ∧ ws ≠ [] ∧ (∀ c ∈ ws, spaceChar c = true)
      ∧ idf ≠ [] ∧ (∀ c ∈ idf, wordChar c = true)
      ∧ arg1 ≠ [] ∧ (∀ c ∈ arg1, c ≠ ',')
      ∧ (∀ c ∈ mid, c ≠ ']') :=
  @c8_matched_block_shape ("parentId".data)
    ("\n  a: one(b, \x7b fields: [c.parentId], references: [b.id] \x7d)".data)
    ((("\n  a: one(b, \x7b fields: [c.parentId], references: [b.id] \x7d)".data), ("\n  ".data)))
    (by decide)

/-- C9: even a run in which no candidate matches any target field reopens the
schema file with mode 'w' (truncating it, the middle empty state) and writes
the unchanged buffer back: the on-disk content sequence is original, empty,
original. -/
theorem c9_noop_run_still_writes {S : List Char}
    (h : ∀ f ∈ nullable_fields, findAll (relPattern f) S = []) :
    runFileStates S = [S, [], S] := by
  unfold runFileStates fixAllRelations
  rw [rewriteFields_of_no_match h]

theorem c9_noop_run_still_writes_witness :
    runFileStates ("export const a = 1;".data)
      = [("export const a = 1;".data), [], ("export const a = 1;".data)] :=
  c9_noop_run_still_writes (by decide)

/-- C10: the replacement of line 55 is a whole-buffer textual substitution:
when the buffer decomposes as u, the matched text, v, the same text again and
w, with no occurrence of the matched text starting anywhere else, both
occurrences are replaced by the commented form, not only the one located by
the match. -/
theorem c10_replace_hits_every_occurrence {u v w pat rep : List Char} (hp : pat ≠ [])
    (hu : ∀ i, i < u.length → ¬ pat.isPrefixOf (u.drop i ++ (pat ++ (v ++ (pat ++ w)))) = true)
    (hv : ∀ i, i < v.length → ¬ pat.isPrefixOf (v.drop i ++ (pat ++ w)) = true)
    (hw : ∀ i, i < w.length → ¬ pat.isPrefixOf (w.drop i) = true) :
    replaceAll (u ++ (pat ++ (v ++ (pat ++ w)))) pat rep
      = u ++ (rep ++ (v ++ (rep ++ w))) := by
  unfold replaceAll
  have e1 : u.length + (pat ++ (v ++ (pat ++ w))).length
      ≤ (u ++ (pat ++ (v ++ (pat ++ w)))).length := by
    simp [List.length_append]
  rw [replaceAllF_skip u _ _ e1 hu]
  congr 1
  have e2 : pat.length + (v ++ (pat ++ w)).length
      ≤ (u ++ (pat ++ (v ++ (pat ++ w)))).length - u.length := by
    simp only [List.length_append]
    omega
  rw [replaceAllF_hit hp e2]
  congr 1
  have e3 : v.length + (pat ++ w).length
      ≤ ((u ++ (pat ++ (v ++ (pat ++ w)))).length - u.length) - pat.length := by
    simp only [List.length_append]
    omega
  rw [replaceAllF_skip v _ _ e3 hv]
  congr 1
  have e4 : pat.length + w.length
      ≤ (((u ++ (pat ++ (v ++ (pat ++ w)))).length - u.length) - pat.length) - v.length := by
    simp only [List.length_append]
    omega
  rw [replaceAllF_hit hp e4]
  congr 1
  exact replaceAllF_none w _ hw

theorem c10_replace_hits_every_occurrence_witness :
    replaceAll (("x".data) ++ (("ab".data) ++ (("y".data) ++ (("ab".data) ++ ("z".data)))))
        ("ab".data) ("R".data)
      = ("x".data) ++ (("R".data) ++ (("y".data) ++ (("R".data) ++ ("z".data)))) :=
  c10_replace_hits_every_occurrence (by decide) (by decide) (by decide) (by decide)

end Clarafi
